import Mathlib

/-!
Verification of the `graph-tp2` ETL program (`src/app/etl.py`).

The development shallowly embeds the program:
* the chunker `chunk` (Python `range`-based slicing, including the
  behaviour at zero and negative batch sizes);
* the Cypher schema-file runner `run_cypher_file` (split on `;`, trim,
  drop empties, run sequentially, stop at first failure);
* the readiness gates `wait_for_postgres` / `wait_for_neo4j` as a
  fuel-indexed retry loop;
* the load phase of `etl` over a graph state: nodes are association
  lists keyed by id (Cypher `MERGE (n {id: ...}) SET ...` is an upsert),
  property-carrying relationships are association lists keyed by the
  endpoint pair, and property-free relationships are duplicate-free
  edge lists (Cypher `MERGE (a)-[:R]->(b)` inserts the edge if absent);
  `MATCH` on a missing endpoint drops the row.
-/

set_option maxHeartbeats 1000000
set_option linter.unusedSectionVars false

namespace GraphTP2

/-! ### Association-list maps

Neo4j `MERGE (n:L {id: k}) SET n.p = v` against a store with unique ids
behaves as an upsert on an id-keyed map.  We model each node label (and
each property-carrying relationship type, keyed by its endpoint pair)
as an association list, updated in row order. -/

variable {κ : Type} {ν : Type} [DecidableEq κ]

/-- Keys of an association list, in storage order. -/
def keysOf (m : List (κ × ν)) : List κ := m.map Prod.fst

/-- First-match lookup in an association list. -/
def lookupKey (k : κ) : List (κ × ν) → Option ν
  | [] => none
  | p :: rest => if p.1 = k then some p.2 else lookupKey k rest

/-- Upsert: overwrite the value at the first occurrence of `k`, or append
`(k, v)` when `k` is absent.  This is `MERGE ... SET ...` on a key. -/
def upsert (k : κ) (v : ν) : List (κ × ν) → List (κ × ν)
  | [] => [(k, v)]
  | p :: rest => if p.1 = k then (k, v) :: rest else p :: upsert k v rest

@[simp] theorem upsert_cons_eq {k : κ} {v b : ν} {rest : List (κ × ν)} :
    upsert k v ((k, b) :: rest) = (k, v) :: rest := by
  simp [upsert]

@[simp] theorem upsert_cons_ne {k : κ} {v : ν} {a : κ} {b : ν} {rest : List (κ × ν)}
    (h : a ≠ k) : upsert k v ((a, b) :: rest) = (a, b) :: upsert k v rest := by
  simp [upsert, h]

/-- Upserting every pair of a list in order. -/
def mapUpsert (ps : List (κ × ν)) (m : List (κ × ν)) : List (κ × ν) :=
  ps.foldl (fun m p => upsert p.1 p.2 m) m

/-- A map is well formed when its keys are pairwise distinct. -/
def WFmap (m : List (κ × ν)) : Prop := (keysOf m).Nodup

/-! The `maskAt` machinery: two maps are equal after masking the value at
key `k` exactly when they agree everywhere except possibly in the value
stored at `k`.  It isolates the effect of re-upserting a key during the
second run of the load phase. -/

/-- `m` with the value stored at key `k` blanked out. -/
def maskAt (k : κ) (m : List (κ × ν)) : List (κ × Option ν) :=
  m.map (fun p => (p.1, if p.1 = k then none else some p.2))

/-! ### Duplicate-free edge lists

A property-free relationship `MERGE (a)-[:R]->(b)` adds the edge exactly
when it is not already present. -/

variable {σ : Type} [DecidableEq σ]

/-- Insert an edge if absent (Cypher `MERGE` on a property-free pattern). -/
def insertEdge (e : σ) (es : List σ) : List σ :=
  if e ∈ es then es else es ++ [e]

/-- Insert a list of edges in order. -/
def insertFold (new : List σ) (es : List σ) : List σ :=
  new.foldl (fun es e => insertEdge e es) es

/-! ### The chunker

`src/app/etl.py`, `chunk`:
```
def chunk(df, size=1000):
    for start in range(0, len(df), size):
        yield df.iloc[start : start + size]
```
Rows are modelled as a list; `df.iloc[a:b]` is the clamped slice. -/

/-- Python `df.iloc[start:stop]`: rows with indices in `[start, stop)`, clamped. -/
def iloc {α : Type} (df : List α) (start stop : Nat) : List α :=
  (df.drop start).take (stop - start)

/-- Python `range(0, stop, step)` for a positive `step`:
`(stop + step - 1) / step` values `0, step, 2*step, ...`. -/
def pyRangePos (stop step : Nat) : List Nat :=
  (List.range ((stop + step - 1) / step)).map (fun i => i * step)

/-- The list of batches `chunk` yields when the size is positive. -/
def chunkOk {α : Type} (df : List α) (size : Nat) : List (List α) :=
  (pyRangePos df.length size).map (fun start => iloc df start (start + size))

/-- `chunk(df, size)`.  The result models the fully consumed generator:
`size = 0` is the `ValueError: range() arg 3 must not be zero` that
`range` raises as soon as the generator is pulled; a negative `size`
makes `range(0, len(df), size)` empty, so no batch is ever yielded. -/
def chunk {α : Type} (df : List α) (size : Int) : Except String (List (List α)) :=
  if size = 0 then .error "range() arg 3 must not be zero"
  else if size < 0 then .ok []
  else .ok (chunkOk df size.toNat)

/-! ### The schema loader

`src/app/etl.py`, `run_cypher_file`:
```
text = path.read_text(encoding="utf-8")
statements = [s.strip() for s in text.split(";") if s.strip()]
for stmt in statements:
    session.run(stmt)
```
The abstract session is a function from a statement to `Except ε Unit`;
the loop is modelled with the list of statements actually passed to
`session.run` (in order) and the error of the first failing one, if any:
a raised exception propagates and aborts the loop. -/

/-- Python `str.strip()`: drop whitespace from both ends. -/
def pyStrip (s : String) : String :=
  ⟨((s.data.dropWhile Char.isWhitespace).reverse.dropWhile Char.isWhitespace).reverse⟩

/-- Python `text.split(sep)` for a one-character separator, over the
character list: fragments between separators, empties kept. -/
def pySplitChars (sep : Char) : List Char → List (List Char)
  | [] => [[]]
  | c :: rest =>
    match pySplitChars sep rest with
    | [] => [[]]
    | g :: gs => if c = sep then [] :: g :: gs else (c :: g) :: gs

/-- Python `text.split(sep)`. -/
def pySplit (sep : Char) (text : String) : List String :=
  (pySplitChars sep text.data).map (fun cs => ⟨cs⟩)

/-- The statement list: split on `;`, strip, drop fragments that are empty
after stripping. -/
def splitStatements (text : String) : List String :=
  ((pySplit ';' text).map pyStrip).filter (fun s => s ≠ "")

/-- Run statements in order, stopping at the first failure.  Returns the
statements actually executed and the error that stopped the run, if any. -/
def runStatements {ε : Type} (run : String → Except ε Unit) :
    List String → List String × Option ε
  | [] => ([], none)
  | s :: rest =>
    match run s with
    | .error e => ([s], some e)
    | .ok _ =>
      let res := runStatements run rest
      (s :: res.1, res.2)

/-- `run_cypher_file(session, path)` over the file's text. -/
def run_cypher_file {ε : Type} (run : String → Except ε Unit) (text : String) :
    List String × Option ε :=
  runStatements run (splitStatements text)

/-! ### The readiness gates

`wait_for_postgres` and `wait_for_neo4j` share one shape:
```
while True:
    try:
        <connectivity check>
        break
    except Exception as e:
        print(...)
        time.sleep(RETRY_SECONDS)
```
`check n` tells whether the `n`-th connectivity check (0-based) succeeds
(`false` = the check raised and was caught).  The loop is modelled with
fuel bounding how many iterations we unroll: `some a` means the loop
returned normally after `a` attempts, `none` means it was still looping
after `fuel` iterations.  No error value exists in the result: every
check failure is caught and retried. -/

def waitFuel (check : Nat → Bool) : Nat → Nat → Option Nat
  | 0, _ => none
  | fuel + 1, attempts =>
    if check attempts then some (attempts + 1)
    else waitFuel check fuel (attempts + 1)

/-! ### Data model

One structure per source table row (`SELECT *` column lists from the
schema in §6 of the spec; `etl` reads exactly these fields). -/

structure CustomerRow where
  id : Int
  name : String
  join_date : String
deriving DecidableEq

structure CategoryRow where
  id : Int
  name : String
deriving DecidableEq

structure ProductRow where
  id : Int
  name : String
  price : Int
  category_id : Int
deriving DecidableEq

structure OrderRow where
  id : Int
  customer_id : Int
  ts : String
deriving DecidableEq

structure OrderItemRow where
  order_id : Int
  product_id : Int
  quantity : Int
deriving DecidableEq

structure EventRow where
  customer_id : Int
  product_id : Int
  event_type : String
  ts : String
deriving DecidableEq

/-- The snapshot extracted from Postgres (one full read per table). -/
structure Source where
  customers : List CustomerRow
  categories : List CategoryRow
  products : List ProductRow
  orders : List OrderRow
  order_items : List OrderItemRow
  events : List EventRow
deriving DecidableEq

/-- The Neo4j graph state.  Node labels and property-carrying
relationships are id-keyed association lists; the property-free
relationships `IN_CATEGORY` and `PLACED` are duplicate-free edge lists.
`contains`/`view`/`click`/`addToCart` are keyed by the endpoint pair and
store the property (`quantity` resp. `ts`). -/
@[ext]
structure Graph where
  categories : List (Int × String)
  products : List (Int × (String × Int))
  customers : List (Int × (String × String))
  orders : List (Int × String)
  inCategory : List (Int × Int)
  placed : List (Int × Int)
  contains : List ((Int × Int) × Int)
  view : List ((Int × Int) × String)
  click : List ((Int × Int) × String)
  addToCart : List ((Int × Int) × String)
deriving DecidableEq

def emptyGraph : Graph :=
  ⟨[], [], [], [], [], [], [], [], [], []⟩

/-! ### Per-row semantics of the six Cypher templates

Each `session.run` call in `etl` executes `UNWIND $rows AS row ...` over a
batch; `UNWIND` processes rows in order, so a batch is a fold of the
per-row step. -/

/-- `MERGE (c:Category {id: row.id}) SET c.name = row.name`. -/
def categoryStep (g : Graph) (r : CategoryRow) : Graph :=
  { g with categories := upsert r.id r.name g.categories }

/-- `MERGE (p:Product {id}) SET p.name, p.price  WITH p, row
    MATCH (c:Category {id: row.category_id})  MERGE (p)-[:IN_CATEGORY]->(c)` —
the node is merged first; a failing `MATCH` drops the row, skipping only
the edge. -/
def productStep (g : Graph) (r : ProductRow) : Graph :=
  let g' := { g with products := upsert r.id (r.name, r.price) g.products }
  match lookupKey r.category_id g'.categories with
  | some _ => { g' with inCategory := insertEdge (r.id, r.category_id) g'.inCategory }
  | none => g'

/-- `MERGE (c:Customer {id}) SET c.name, c.join_date`. -/
def customerStep (g : Graph) (r : CustomerRow) : Graph :=
  { g with customers := upsert r.id (r.name, r.join_date) g.customers }

/-- `MERGE (o:Order {id}) SET o.ts  WITH o, row
    MATCH (c:Customer {id: row.customer_id})  MERGE (c)-[:PLACED]->(o)`. -/
def orderStep (g : Graph) (r : OrderRow) : Graph :=
  let g' := { g with orders := upsert r.id r.ts g.orders }
  match lookupKey r.customer_id g'.customers with
  | some _ => { g' with placed := insertEdge (r.customer_id, r.id) g'.placed }
  | none => g'

/-- `MATCH (o:Order {id: row.order_id}) MATCH (p:Product {id: row.product_id})
    MERGE (o)-[r:CONTAINS]->(p) SET r.quantity = row.quantity` — both
matches must succeed or the row does nothing. -/
def orderItemStep (g : Graph) (r : OrderItemRow) : Graph :=
  match lookupKey r.order_id g.orders, lookupKey r.product_id g.products with
  | some _, some _ =>
    { g with contains := upsert (r.order_id, r.product_id) r.quantity g.contains }
  | _, _ => g

/-- `MATCH (c:Customer ...) MATCH (p:Product ...)
    MERGE (c)-[r:VIEW]->(p) SET r.ts = row.ts`. -/
def viewStep (g : Graph) (r : EventRow) : Graph :=
  match lookupKey r.customer_id g.customers, lookupKey r.product_id g.products with
  | some _, some _ =>
    { g with view := upsert (r.customer_id, r.product_id) r.ts g.view }
  | _, _ => g

/-- Same as `viewStep` for the `CLICK` relationship. -/
def clickStep (g : Graph) (r : EventRow) : Graph :=
  match lookupKey r.customer_id g.customers, lookupKey r.product_id g.products with
  | some _, some _ =>
    { g with click := upsert (r.customer_id, r.product_id) r.ts g.click }
  | _, _ => g

/-- Same as `viewStep` for the `ADD_TO_CART` relationship. -/
def atcStep (g : Graph) (r : EventRow) : Graph :=
  match lookupKey r.customer_id g.customers, lookupKey r.product_id g.products with
  | some _, some _ =>
    { g with addToCart := upsert (r.customer_id, r.product_id) r.ts g.addToCart }
  | _, _ => g

/-! ### The load phase

Each table is loaded with `for df in chunk(table, 100): session.run(...)`;
the event table is pre-filtered by `event_type` before chunking. -/

def runCategoryBatch (g : Graph) (batch : List CategoryRow) : Graph :=
  batch.foldl categoryStep g

def runProductBatch (g : Graph) (batch : List ProductRow) : Graph :=
  batch.foldl productStep g

def runCustomerBatch (g : Graph) (batch : List CustomerRow) : Graph :=
  batch.foldl customerStep g

def runOrderBatch (g : Graph) (batch : List OrderRow) : Graph :=
  batch.foldl orderStep g

def runOrderItemBatch (g : Graph) (batch : List OrderItemRow) : Graph :=
  batch.foldl orderItemStep g

def runViewBatch (g : Graph) (batch : List EventRow) : Graph :=
  batch.foldl viewStep g

def runClickBatch (g : Graph) (batch : List EventRow) : Graph :=
  batch.foldl clickStep g

def runAtcBatch (g : Graph) (batch : List EventRow) : Graph :=
  batch.foldl atcStep g

def loadCategories (rows : List CategoryRow) (g : Graph) : Graph :=
  (chunkOk rows 100).foldl runCategoryBatch g

def loadProducts (rows : List ProductRow) (g : Graph) : Graph :=
  (chunkOk rows 100).foldl runProductBatch g

def loadCustomers (rows : List CustomerRow) (g : Graph) : Graph :=
  (chunkOk rows 100).foldl runCustomerBatch g

def loadOrders (rows : List OrderRow) (g : Graph) : Graph :=
  (chunkOk rows 100).foldl runOrderBatch g

def loadOrderItems (rows : List OrderItemRow) (g : Graph) : Graph :=
  (chunkOk rows 100).foldl runOrderItemBatch g

def loadViewEvents (rows : List EventRow) (g : Graph) : Graph :=
  (chunkOk rows 100).foldl runViewBatch g

def loadClickEvents (rows : List EventRow) (g : Graph) : Graph :=
  (chunkOk rows 100).foldl runClickBatch g

def loadAtcEvents (rows : List EventRow) (g : Graph) : Graph :=
  (chunkOk rows 100).foldl runAtcBatch g

/-- `events[events["event_type"] == "view"]` (order-preserving filter). -/
def viewRows (events : List EventRow) : List EventRow :=
  events.filter (fun e => e.event_type == "view")

/-- `events[events["event_type"] == "click"]`. -/
def clickRows (events : List EventRow) : List EventRow :=
  events.filter (fun e => e.event_type == "click")

/-- `events[events["event_type"] == "add_to_cart"]`. -/
def atcRows (events : List EventRow) : List EventRow :=
  events.filter (fun e => e.event_type == "add_to_cart")

/-- Step 8 of `etl`: the three pre-filtered event passes, in program
order (`VIEW`, then `CLICK`, then `ADD_TO_CART`). -/
def loadAllEvents (events : List EventRow) (g : Graph) : Graph :=
  loadAtcEvents (atcRows events)
    (loadClickEvents (clickRows events)
      (loadViewEvents (viewRows events) g))

/-- Steps 3–8 of `etl`: the full load phase, in program order. -/
def etlLoad (src : Source) (g : Graph) : Graph :=
  loadAllEvents src.events
    (loadOrderItems src.order_items
      (loadOrders src.orders
        (loadCustomers src.customers
          (loadProducts src.products
            (loadCategories src.categories g)))))

/-! ### Closed forms of the load phases

The (key, value) pairs each phase upserts, and the edges it inserts,
extracted from the row lists.  The guard contexts (`cats`, `custs`,
`ords`, `prods`) stay fixed during the corresponding phase, because no
phase modifies the node maps it matches against. -/

def catPairs (rows : List CategoryRow) : List (Int × String) :=
  rows.map (fun r => (r.id, r.name))

def prodPairs (rows : List ProductRow) : List (Int × (String × Int)) :=
  rows.map (fun r => (r.id, (r.name, r.price)))

def custPairs (rows : List CustomerRow) : List (Int × (String × String)) :=
  rows.map (fun r => (r.id, (r.name, r.join_date)))

def orderPairs (rows : List OrderRow) : List (Int × String) :=
  rows.map (fun r => (r.id, r.ts))

def inCatEdges (rows : List ProductRow) (cats : List (Int × String)) :
    List (Int × Int) :=
  rows.filterMap (fun r =>
    match lookupKey r.category_id cats with
    | some _ => some (r.id, r.category_id)
    | none => none)

def placedEdges (rows : List OrderRow) (custs : List (Int × (String × String))) :
    List (Int × Int) :=
  rows.filterMap (fun r =>
    match lookupKey r.customer_id custs with
    | some _ => some (r.customer_id, r.id)
    | none => none)

def containsPairs (rows : List OrderItemRow) (ords : List (Int × String))
    (prods : List (Int × (String × Int))) : List ((Int × Int) × Int) :=
  rows.filterMap (fun r =>
    match lookupKey r.order_id ords, lookupKey r.product_id prods with
    | some _, some _ => some ((r.order_id, r.product_id), r.quantity)
    | _, _ => none)

def eventPairs (rows : List EventRow) (custs : List (Int × (String × String)))
    (prods : List (Int × (String × Int))) : List ((Int × Int) × String) :=
  rows.filterMap (fun r =>
    match lookupKey r.customer_id custs, lookupKey r.product_id prods with
    | some _, some _ => some ((r.customer_id, r.product_id), r.ts)
    | _, _ => none)

/-- Load-phase well-formedness: all keyed maps have pairwise-distinct
keys (Neo4j nodes and relationships are unique per key, which the
schema's uniqueness constraints and `MERGE` maintain). -/
def WFgraph (g : Graph) : Prop :=
  WFmap g.categories ∧ WFmap g.products ∧ WFmap g.customers ∧ WFmap g.orders ∧
  WFmap g.contains ∧ WFmap g.view ∧ WFmap g.click ∧ WFmap g.addToCart

/-- A one-row-per-table source snapshot used to instantiate theorems. -/
def srcW : Source :=
  { customers := [⟨1, "ann", "2020-01-01"⟩]
    categories := [⟨7, "books"⟩]
    products := [⟨2, "book", 5, 7⟩]
    orders := [⟨3, 1, "2021-01-01"⟩]
    order_items := [⟨3, 2, 2⟩]
    events := [⟨1, 2, "view", "2021-01-02"⟩] }

/-- A graph state holding just the two endpoint nodes used in event
examples (customer 1 and product 2), with no relationships. -/
def gW : Graph :=
  { emptyGraph with
    customers := [(1, ("ann", "2020-01-01"))]
    products := [(2, ("book", 5))] }

/-- Two identical `view` events by customer 1 on product 2. -/
def eventsCx : List EventRow :=
  [⟨1, 2, "view", "2021-01-02"⟩, ⟨1, 2, "view", "2021-01-02"⟩]

/-- One event of each of the three recognised types. -/
def eventsW : List EventRow :=
  [⟨1, 2, "view", "t1"⟩, ⟨1, 2, "click", "t2"⟩, ⟨1, 2, "add_to_cart", "t3"⟩]

/-- A source whose single product references category 99, which no
category row provides. -/
def srcDangling : Source :=
  { customers := []
    categories := []
    products := [⟨2, "book", 5, 99⟩]
    orders := []
    order_items := []
    events := [] }

/-! ### The sequence of bulk-write calls

`etl` is single-threaded: the load phase is one `for` loop after another,
each iteration a single `session.run`.  `etlOps` is the trace of those
calls, in program order; folding `applyOp` over it replays the load
phase. -/

/-- One `session.run` bulk-upsert call with its batch. -/
inductive Op where
  | categories (batch : List CategoryRow)
  | products (batch : List ProductRow)
  | customers (batch : List CustomerRow)
  | orders (batch : List OrderRow)
  | orderItems (batch : List OrderItemRow)
  | viewEvents (batch : List EventRow)
  | clickEvents (batch : List EventRow)
  | atcEvents (batch : List EventRow)

inductive OpKind where
  | category
  | product
  | customer
  | order
  | orderItem
  | view
  | click
  | addToCart
deriving DecidableEq

def Op.kind : Op → OpKind
  | .categories _ => .category
  | .products _ => .product
  | .customers _ => .customer
  | .orders _ => .order
  | .orderItems _ => .orderItem
  | .viewEvents _ => .view
  | .clickEvents _ => .click
  | .atcEvents _ => .addToCart

/-- The trace of `session.run` calls the load phase makes, in program
order: steps 3–8 of `etl`, each table chunked into batches of 100. -/
def etlOps (src : Source) : List Op :=
  (chunkOk src.categories 100).map Op.categories ++
  (chunkOk src.products 100).map Op.products ++
  (chunkOk src.customers 100).map Op.customers ++
  (chunkOk src.orders 100).map Op.orders ++
  (chunkOk src.order_items 100).map Op.orderItems ++
  (chunkOk (viewRows src.events) 100).map Op.viewEvents ++
  (chunkOk (clickRows src.events) 100).map Op.clickEvents ++
  (chunkOk (atcRows src.events) 100).map Op.atcEvents

def applyOp (g : Graph) : Op → Graph
  | .categories b => runCategoryBatch g b
  | .products b => runProductBatch g b
  | .customers b => runCustomerBatch g b
  | .orders b => runOrderBatch g b
  | .orderItems b => runOrderItemBatch g b
  | .viewEvents b => runViewBatch g b
  | .clickEvents b => runClickBatch g b
  | .atcEvents b => runAtcBatch g b

/-! ### Resource release

```
pg_conn = psycopg2.connect(...)
driver = GraphDatabase.driver(...)
try:
    with driver.session() as session:
        ...  # schema load, extraction, loading
finally:
    pg_conn.close()
    driver.close()
```
The load phase is abstracted to its action trace together with its
outcome: `Except.ok ()` for a normal exit, `Except.error e` for the first
uncaught exception (from schema load, extraction or loading). -/

inductive EtlAction where
  | openPgConn
  | openNeo4jDriver
  | loadAction (n : Nat)
  | closePgConn
  | closeNeo4jDriver
deriving DecidableEq

/-- Python `try: body finally: fin` — the finaliser's actions run after
the body's whether the body returned normally or raised, and the body's
outcome (value or exception) is passed through unchanged. -/
def tryFinally {ε : Type} (body : List EtlAction × Except ε Unit)
    (fin : List EtlAction) : List EtlAction × Except ε Unit :=
  (body.1 ++ fin, body.2)

/-- The resource skeleton of `etl()`: open both connections, run the
whole load phase inside `try/finally`, close both in the finaliser. -/
def etlResourceTrace {ε : Type} (body : List EtlAction × Except ε Unit) :
    List EtlAction × Except ε Unit :=
  ([EtlAction.openPgConn, EtlAction.openNeo4jDriver] ++
      (tryFinally body [EtlAction.closePgConn, EtlAction.closeNeo4jDriver]).1,
   (tryFinally body [EtlAction.closePgConn, EtlAction.closeNeo4jDriver]).2)

/-! ### Properties -/

@[simp] theorem keysOf_nil : keysOf ([] : List (κ × ν)) = [] := rfl

@[simp] theorem keysOf_cons (p : κ × ν) (m : List (κ × ν)) :
    keysOf (p :: m) = p.1 :: keysOf m := rfl

@[simp] theorem keysOf_append (m t : List (κ × ν)) :
    keysOf (m ++ t) = keysOf m ++ keysOf t := by
  simp [keysOf]

theorem mem_keysOf {k : κ} {m : List (κ × ν)} :
    k ∈ keysOf m ↔ ∃ v, (k, v) ∈ m := by
  simp only [keysOf, List.mem_map]
  constructor
  · rintro ⟨⟨a, b⟩, hmem, rfl⟩
    exact ⟨b, hmem⟩
  · rintro ⟨v, hv⟩
    exact ⟨(k, v), hv, rfl⟩

theorem lookupKey_eq_none {k : κ} {m : List (κ × ν)} (h : k ∉ keysOf m) :
    lookupKey k m = none := by
  induction m with
  | nil => rfl
  | cons p rest ih =>
    simp only [keysOf_cons, List.mem_cons] at h
    push_neg at h
    simp [lookupKey, Ne.symm h.1, ih h.2]

theorem lookupKey_isSome {k : κ} {m : List (κ × ν)} (h : k ∈ keysOf m) :
    (lookupKey k m).isSome := by
  induction m with
  | nil => simp [keysOf] at h
  | cons p rest ih =>
    by_cases hp : p.1 = k
    · simp [lookupKey, hp]
    · simp only [keysOf_cons, List.mem_cons] at h
      rcases h with h | h
      · exact absurd h.symm hp
      · simp [lookupKey, hp, ih h]

theorem lookupKey_append_left {k : κ} {m t : List (κ × ν)} (h : k ∈ keysOf m) :
    lookupKey k (m ++ t) = lookupKey k m := by
  induction m with
  | nil => simp [keysOf] at h
  | cons p rest ih =>
    by_cases hp : p.1 = k
    · simp [lookupKey, hp]
    · simp only [keysOf_cons, List.mem_cons] at h
      rcases h with h | h
      · exact absurd h.symm hp
      · simp [lookupKey, hp, ih h]

theorem lookupKey_append_right {k : κ} {m t : List (κ × ν)} (h : k ∉ keysOf m) :
    lookupKey k (m ++ t) = lookupKey k t := by
  induction m with
  | nil => rfl
  | cons p rest ih =>
    simp only [keysOf_cons, List.mem_cons] at h
    push_neg at h
    simp [lookupKey, Ne.symm h.1, ih h.2]

theorem upsert_of_not_mem {k : κ} {v : ν} {m : List (κ × ν)} (h : k ∉ keysOf m) :
    upsert k v m = m ++ [(k, v)] := by
  induction m with
  | nil => rfl
  | cons p rest ih =>
    simp only [keysOf_cons, List.mem_cons] at h
    push_neg at h
    simp [upsert, Ne.symm h.1, ih h.2]

theorem keysOf_upsert_of_mem {k : κ} {v : ν} {m : List (κ × ν)} (h : k ∈ keysOf m) :
    keysOf (upsert k v m) = keysOf m := by
  induction m with
  | nil => simp [keysOf] at h
  | cons p rest ih =>
    cases p with
    | mk a b =>
      by_cases hp : a = k
      · subst hp
        simp [upsert]
      · simp only [keysOf_cons, List.mem_cons] at h
        rcases h with h | h
        · exact absurd h.symm hp
        · simp [upsert, hp, keysOf_cons, ih h]

theorem keysOf_upsert_subset {k : κ} {v : ν} {m : List (κ × ν)} :
    keysOf m ⊆ keysOf (upsert k v m) := by
  by_cases h : k ∈ keysOf m
  · rw [keysOf_upsert_of_mem h]
    exact fun a ha => ha
  · rw [upsert_of_not_mem h]
    intro a ha
    simp [ha]

theorem mem_keysOf_upsert_self {k : κ} {v : ν} {m : List (κ × ν)} :
    k ∈ keysOf (upsert k v m) := by
  by_cases h : k ∈ keysOf m
  · rw [keysOf_upsert_of_mem h]; exact h
  · rw [upsert_of_not_mem h]; simp

theorem upsert_self {k : κ} {v : ν} {m : List (κ × ν)}
    (h : lookupKey k m = some v) : upsert k v m = m := by
  induction m with
  | nil => simp [lookupKey] at h
  | cons p rest ih =>
    cases p with
    | mk a b =>
      by_cases hp : a = k
      · subst hp
        have hb : b = v := by simpa [lookupKey] using h
        subst hb
        simp [upsert]
      · have h' : lookupKey k rest = some v := by simpa [lookupKey, hp] using h
        simp [upsert, hp, ih h']

theorem upsert_append_left {k : κ} {v : ν} {m t : List (κ × ν)}
    (h : k ∈ keysOf m) : upsert k v (m ++ t) = upsert k v m ++ t := by
  induction m with
  | nil => simp [keysOf] at h
  | cons p rest ih =>
    by_cases hp : p.1 = k
    · simp [upsert, hp]
    · simp only [keysOf_cons, List.mem_cons] at h
      rcases h with h | h
      · exact absurd h.symm hp
      · simp [upsert, hp, ih h]

theorem WFmap_upsert {k : κ} {v : ν} {m : List (κ × ν)} (h : WFmap m) :
    WFmap (upsert k v m) := by
  by_cases hk : k ∈ keysOf m
  · unfold WFmap
    rw [keysOf_upsert_of_mem hk]
    exact h
  · unfold WFmap
    rw [upsert_of_not_mem hk]
    simp only [keysOf_append, keysOf_cons, keysOf_nil]
    exact List.Nodup.append h (List.nodup_singleton k) (by
      intro a ha hb
      simp at hb
      subst hb
      exact hk ha)

@[simp] theorem mapUpsert_nil (m : List (κ × ν)) : mapUpsert [] m = m := rfl

@[simp] theorem mapUpsert_cons (p : κ × ν) (ps : List (κ × ν)) (m : List (κ × ν)) :
    mapUpsert (p :: ps) m = mapUpsert ps (upsert p.1 p.2 m) := rfl

theorem mapUpsert_append (ps qs m : List (κ × ν)) :
    mapUpsert (ps ++ qs) m = mapUpsert qs (mapUpsert ps m) := by
  simp [mapUpsert, List.foldl_append]

theorem WFmap_mapUpsert {ps m : List (κ × ν)} (h : WFmap m) : WFmap (mapUpsert ps m) := by
  induction ps generalizing m with
  | nil => exact h
  | cons p ps ih => exact ih (WFmap_upsert h)

theorem keysOf_subset_mapUpsert {ps m : List (κ × ν)} :
    keysOf m ⊆ keysOf (mapUpsert ps m) := by
  induction ps generalizing m with
  | nil => exact fun a ha => ha
  | cons p ps ih =>
    exact fun a ha => ih (keysOf_upsert_subset ha)

theorem mem_keysOf_mapUpsert {p : κ × ν} {ps m : List (κ × ν)} (h : p ∈ ps) :
    p.1 ∈ keysOf (mapUpsert ps m) := by
  induction ps generalizing m with
  | nil => simp at h
  | cons q ps ih =>
    rcases List.mem_cons.mp h with h | h
    · subst h
      rw [mapUpsert_cons]
      exact keysOf_subset_mapUpsert mem_keysOf_upsert_self
    · rw [mapUpsert_cons]
      exact ih h

theorem not_mem_keysOf_mapUpsert {k : κ} {ps m : List (κ × ν)}
    (hm : k ∉ keysOf m) (hps : ∀ p ∈ ps, p.1 ≠ k) :
    k ∉ keysOf (mapUpsert ps m) := by
  induction ps generalizing m with
  | nil => exact hm
  | cons p ps ih =>
    rw [mapUpsert_cons]
    refine ih ?_ (fun q hq => hps q (List.mem_cons_of_mem _ hq))
    intro hk
    by_cases hp : p.1 ∈ keysOf m
    · rw [keysOf_upsert_of_mem hp] at hk
      exact hm hk
    · rw [upsert_of_not_mem hp] at hk
      simp only [keysOf_append, List.mem_append, keysOf_cons, keysOf_nil,
        List.mem_cons, List.not_mem_nil, or_false] at hk
      rcases hk with hk | hk
      · exact hm hk
      · exact hps p (List.mem_cons_self _ _) hk.symm

theorem mapUpsert_append_right {ps m t : List (κ × ν)}
    (h : ∀ p ∈ ps, p.1 ∈ keysOf m) :
    mapUpsert ps (m ++ t) = mapUpsert ps m ++ t := by
  induction ps generalizing m with
  | nil => rfl
  | cons p ps ih =>
    rw [mapUpsert_cons, mapUpsert_cons,
      upsert_append_left (h p (List.mem_cons_self _ _))]
    exact ih (fun q hq => keysOf_upsert_subset (h q (List.mem_cons_of_mem _ hq)))

@[simp] theorem maskAt_nil (k : κ) : maskAt k ([] : List (κ × ν)) = [] := rfl

@[simp] theorem maskAt_cons (k : κ) (p : κ × ν) (m : List (κ × ν)) :
    maskAt k (p :: m) = (p.1, if p.1 = k then none else some p.2) :: maskAt k m := rfl

theorem eq_of_maskAt_of_not_mem {k : κ} {m₁ m₂ : List (κ × ν)}
    (h : maskAt k m₁ = maskAt k m₂) (h₁ : k ∉ keysOf m₁) : m₁ = m₂ := by
  induction m₁ generalizing m₂ with
  | nil =>
    cases m₂ with
    | nil => rfl
    | cons q t₂ => simp [maskAt] at h
  | cons p t ih =>
    cases m₂ with
    | nil => simp [maskAt] at h
    | cons q t₂ =>
      cases p with
      | mk a b =>
        cases q with
        | mk a₂ b₂ =>
          simp only [maskAt_cons, List.cons.injEq, Prod.mk.injEq] at h
          obtain ⟨⟨ha, hv⟩, htail⟩ := h
          simp only [keysOf_cons, List.mem_cons] at h₁
          push_neg at h₁
          subst ha
          rw [if_neg (Ne.symm h₁.1), if_neg (Ne.symm h₁.1)] at hv
          simp only [Option.some.injEq] at hv
          subst hv
          rw [ih htail h₁.2]

theorem upsert_eq_of_maskAt {k : κ} {v : ν} {m₁ m₂ : List (κ × ν)}
    (hw : WFmap m₁) (h : maskAt k m₁ = maskAt k m₂) :
    upsert k v m₁ = upsert k v m₂ := by
  induction m₁ generalizing m₂ with
  | nil =>
    cases m₂ with
    | nil => rfl
    | cons q t₂ => simp [maskAt] at h
  | cons p t ih =>
    cases m₂ with
    | nil => simp [maskAt] at h
    | cons q t₂ =>
      cases p with
      | mk a b =>
        cases q with
        | mk a₂ b₂ =>
          simp only [maskAt_cons, List.cons.injEq, Prod.mk.injEq] at h
          obtain ⟨⟨ha, hv⟩, htail⟩ := h
          subst ha
          simp only [WFmap, keysOf_cons, List.nodup_cons] at hw
          by_cases hak : a = k
          · subst hak
            have ht : t = t₂ := eq_of_maskAt_of_not_mem htail hw.1
            subst ht
            simp [upsert]
          · rw [if_neg hak, if_neg hak] at hv
            simp only [Option.some.injEq] at hv
            subst hv
            simp [upsert, hak, ih hw.2 htail]

theorem maskAt_upsert {k k' : κ} {v' : ν} {m₁ m₂ : List (κ × ν)}
    (hw : WFmap m₁) (h : maskAt k m₁ = maskAt k m₂) :
    maskAt k (upsert k' v' m₁) = maskAt k (upsert k' v' m₂) := by
  by_cases hkk : k' = k
  · subst hkk
    rw [upsert_eq_of_maskAt hw h]
  · induction m₁ generalizing m₂ with
    | nil =>
      cases m₂ with
      | nil => rfl
      | cons q t₂ => simp [maskAt] at h
    | cons p t ih =>
      cases m₂ with
      | nil => simp [maskAt] at h
      | cons q t₂ =>
        cases p with
        | mk a b =>
          cases q with
          | mk a₂ b₂ =>
            simp only [maskAt_cons, List.cons.injEq, Prod.mk.injEq] at h
            obtain ⟨⟨ha, hv⟩, htail⟩ := h
            subst ha
            simp only [WFmap, keysOf_cons, List.nodup_cons] at hw
            by_cases hak : a = k'
            · subst hak
              rw [upsert_cons_eq, upsert_cons_eq]
              simp [htail]
            · rw [upsert_cons_ne hak, upsert_cons_ne hak, maskAt_cons, maskAt_cons,
                ih hw.2 htail]
              simp only [List.cons.injEq, Prod.mk.injEq, and_true]
              exact ⟨trivial, hv⟩

theorem maskAt_upsert_self {k : κ} {v : ν} {m : List (κ × ν)} (h : k ∈ keysOf m) :
    maskAt k (upsert k v m) = maskAt k m := by
  induction m with
  | nil => simp [keysOf] at h
  | cons p rest ih =>
    cases p with
    | mk a b =>
      by_cases hak : a = k
      · subst hak
        simp [upsert]
      · simp only [keysOf_cons, List.mem_cons] at h
        rcases h with h | h
        · exact absurd h.symm hak
        · simp [upsert, hak, ih h]

theorem maskAt_mapUpsert {k : κ} {ps m₁ m₂ : List (κ × ν)}
    (hw : WFmap m₁) (h : maskAt k m₁ = maskAt k m₂) :
    maskAt k (mapUpsert ps m₁) = maskAt k (mapUpsert ps m₂) := by
  induction ps generalizing m₁ m₂ with
  | nil => exact h
  | cons p ps ih =>
    exact ih (WFmap_upsert hw) (maskAt_upsert hw h)

/-- The central map fact behind load-phase idempotence: replaying the same
sequence of upserts on the result of a first replay changes nothing. -/
theorem mapUpsert_idem {ps m : List (κ × ν)} (hw : WFmap m) :
    mapUpsert ps (mapUpsert ps m) = mapUpsert ps m := by
  induction ps using List.reverseRecOn with
  | nil => rfl
  | append_singleton ps p ih =>
    cases p with
    | mk k v =>
      have hX : mapUpsert ps (mapUpsert ps m) = mapUpsert ps m := ih
      have hwX : WFmap (mapUpsert ps m) := WFmap_mapUpsert hw
      simp only [mapUpsert_append, mapUpsert_cons, mapUpsert_nil]
      by_cases hk : k ∈ keysOf (mapUpsert ps m)
      · have h1 : maskAt k (upsert k v (mapUpsert ps m)) = maskAt k (mapUpsert ps m) :=
          maskAt_upsert_self hk
        have h2 : maskAt k (mapUpsert ps (upsert k v (mapUpsert ps m))) =
            maskAt k (mapUpsert ps (mapUpsert ps m)) :=
          maskAt_mapUpsert (WFmap_upsert hwX) h1
        rw [hX] at h2
        exact upsert_eq_of_maskAt (WFmap_mapUpsert (WFmap_upsert hwX)) h2
      · rw [upsert_of_not_mem hk,
          mapUpsert_append_right (fun q hq => mem_keysOf_mapUpsert hq), hX]
        refine upsert_self ?_
        rw [lookupKey_append_right hk]
        simp [lookupKey]

@[simp] theorem insertFold_nil (es : List σ) : insertFold [] es = es := rfl

@[simp] theorem insertFold_cons (e : σ) (new es : List σ) :
    insertFold (e :: new) es = insertFold new (insertEdge e es) := rfl

theorem mem_insertEdge {a e : σ} {es : List σ} :
    a ∈ insertEdge e es ↔ a ∈ es ∨ a = e := by
  unfold insertEdge
  by_cases h : e ∈ es
  · simp only [if_pos h]
    constructor
    · exact Or.inl
    · rintro (ha | rfl)
      · exact ha
      · exact h
  · simp [if_neg h]

theorem insertEdge_of_mem {e : σ} {es : List σ} (h : e ∈ es) :
    insertEdge e es = es := by
  simp [insertEdge, h]

theorem mem_insertFold {a : σ} {new es : List σ} :
    a ∈ insertFold new es ↔ a ∈ es ∨ a ∈ new := by
  induction new generalizing es with
  | nil => simp
  | cons e new ih =>
    simp only [insertFold_cons, ih, mem_insertEdge, List.mem_cons]
    tauto

theorem insertFold_no_op {new es : List σ} (h : ∀ e ∈ new, e ∈ es) :
    insertFold new es = es := by
  induction new with
  | nil => rfl
  | cons e new ih =>
    rw [insertFold_cons, insertEdge_of_mem (h e (List.mem_cons_self _ _))]
    exact ih (fun x hx => h x (List.mem_cons_of_mem _ hx))

/-- Replaying the same edge inserts a second time changes nothing. -/
theorem insertFold_idem (new es : List σ) :
    insertFold new (insertFold new es) = insertFold new es := by
  refine insertFold_no_op (fun e he => ?_)
  exact mem_insertFold.mpr (Or.inr he)

theorem chunkOk_length {α : Type} (df : List α) (s : Nat) :
    (chunkOk df s).length = (df.length + s - 1) / s := by
  simp [chunkOk, pyRangePos]

theorem chunkOk_eq_nil_iff {α : Type} {df : List α} {s : Nat} (hs : 0 < s) :
    chunkOk df s = [] ↔ df = [] := by
  constructor
  · intro h
    have hlen := congrArg List.length h
    rw [chunkOk_length] at hlen
    simp only [List.length_nil] at hlen
    rw [Nat.div_eq_zero_iff hs] at hlen
    have : df.length = 0 := by omega
    exact List.length_eq_zero.mp this
  · intro h
    subst h
    simp [chunkOk, pyRangePos, Nat.div_eq_of_lt (show s - 1 < s by omega)]

theorem chunkOk_cons {α : Type} {df : List α} {s : Nat} (hs : 0 < s)
    (hdf : df ≠ []) :
    chunkOk df s = df.take s :: chunkOk (df.drop s) s := by
  have hN : 0 < df.length := List.length_pos.mpr hdf
  have hcount : (df.length + s - 1) / s = (((df.drop s).length + s - 1) / s) + 1 := by
    rw [List.length_drop]
    rcases le_or_lt df.length s with hle | hlt
    · have h1 : df.length - s = 0 := by omega
      rw [h1, Nat.div_eq_of_lt (show 0 + s - 1 < s by omega)]
      have h2 : df.length + s - 1 = s * 1 + (df.length - 1) := by omega
      have h3 : (df.length - 1) / s = 0 := Nat.div_eq_of_lt (by omega)
      rw [h2, Nat.mul_add_div hs, h3]
    · have heq : df.length + s - 1 = ((df.length - s) + s - 1) + s := by omega
      rw [heq, Nat.add_div_right _ hs]
  have hmain : ∀ (l : List α), chunkOk l s =
      (List.range ((l.length + s - 1) / s)).map (fun i => iloc l (i * s) (i * s + s)) := by
    intro l
    simp [chunkOk, pyRangePos, List.map_map, Function.comp]
  have hfun : ∀ i : Nat,
      iloc df ((i + 1) * s) ((i + 1) * s + s) = iloc (df.drop s) (i * s) (i * s + s) := by
    intro i
    simp only [iloc, Nat.add_sub_cancel_left, List.drop_drop]
    have hss : s + i * s = (i + 1) * s := by ring
    rw [hss]
  rw [hmain df, hmain (df.drop s), hcount, List.range_succ_eq_map, List.map_cons,
    List.map_map]
  congr 1
  · simp [iloc]
  · refine List.map_congr_left (fun i _ => ?_)
    simpa [Function.comp] using hfun i

theorem chunkOk_spec {α : Type} (s : Nat) (hs : 0 < s) :
    ∀ (n : Nat) (df : List α), df.length = n →
      (chunkOk df s).flatten = df ∧
      (∀ b ∈ (chunkOk df s).dropLast, b.length = s) ∧
      (∀ b ∈ chunkOk df s, b.length ≤ s) := by
  intro n
  induction n using Nat.strong_induction_on with
  | _ n ih =>
    intro df hdf
    by_cases hnil : df = []
    · subst hnil
      simp [(chunkOk_eq_nil_iff hs).mpr rfl]
    · rw [chunkOk_cons hs hnil]
      have hpos : 0 < df.length := List.length_pos.mpr hnil
      have hdrop : (df.drop s).length < n := by
        rw [List.length_drop]
        omega
      obtain ⟨hjoin, hfull, hle⟩ := ih _ hdrop (df.drop s) rfl
      refine ⟨?_, ?_, ?_⟩
      · simp [hjoin]
      · by_cases hrest : chunkOk (df.drop s) s = []
        · rw [hrest]
          simp
        · have hlt : s < df.length := by
            have h1 : df.drop s ≠ [] := by
              intro h
              exact hrest ((chunkOk_eq_nil_iff hs).mpr h)
            have h2 : 0 < (df.drop s).length := List.length_pos.mpr h1
            rw [List.length_drop] at h2
            omega
          obtain ⟨c, cs, hcc⟩ := List.exists_cons_of_ne_nil hrest
          rw [hcc]
          intro b hb
          rw [← hcc] at hb
          rw [List.dropLast_cons_of_ne_nil (hcc ▸ List.cons_ne_nil c cs)] at hb
          rcases List.mem_cons.mp hb with rfl | hb
          · simp [List.length_take]
            omega
          · exact hfull b hb
      · intro b hb
        rcases List.mem_cons.mp hb with rfl | hb
        · simp [List.length_take]
        · exact hle b hb

theorem chunkOk_join {α : Type} {df : List α} {s : Nat} (hs : 0 < s) :
    (chunkOk df s).flatten = df :=
  (chunkOk_spec s hs df.length df rfl).1

/-- Looping over all chunks of a list with an accumulating fold is the
same as folding over the whole list: the chunked loads in `etl` process
every row once, in order. -/
theorem chunked_foldl {α β : Type} (step : β → α → β) (rows : List α) (g : β)
    {s : Nat} (hs : 0 < s) :
    (chunkOk rows s).foldl (fun g b => b.foldl step g) g = rows.foldl step g := by
  have hj : (chunkOk rows s).flatten = rows := chunkOk_join hs
  conv_rhs => rw [← hj]
  rw [List.foldl_flatten]

/-- C1.  For every row collection of length `N` and every batch size
`S > 0`, `chunk` yields exactly `⌈N/S⌉ = (N + S - 1) / S` batches, every
batch except possibly the last has exactly `S` rows, every batch has at
most `S` rows, and the concatenation of the batches in yielded order is
the original row collection. -/
theorem chunk_yields_ceil_batches {α : Type} (df : List α) (size : Int)
    (hs : 0 < size) :
    ∃ bs : List (List α), chunk df size = .ok bs ∧
      bs.length = (df.length + size.toNat - 1) / size.toNat ∧
      (∀ b ∈ bs.dropLast, b.length = size.toNat) ∧
      (∀ b ∈ bs, b.length ≤ size.toNat) ∧
      bs.flatten = df := by
  have hs0 : size ≠ 0 := by omega
  have hsneg : ¬ size < 0 := by omega
  have hst : 0 < size.toNat := by omega
  obtain ⟨hjoin, hfull, hle⟩ := chunkOk_spec size.toNat hst df.length df rfl
  exact ⟨chunkOk df size.toNat, by simp [chunk, hs0, hsneg],
    chunkOk_length df size.toNat, hfull, hle, hjoin⟩

theorem chunk_yields_ceil_batches_witness :
    ∃ bs : List (List Nat), chunk [10, 20, 30, 40, 50] (2 : Int) = .ok bs ∧
      bs.length = (([10, 20, 30, 40, 50] : List Nat).length + (2 : Int).toNat - 1) / (2 : Int).toNat ∧
      (∀ b ∈ bs.dropLast, b.length = (2 : Int).toNat) ∧
      (∀ b ∈ bs, b.length ≤ (2 : Int).toNat) ∧
      bs.flatten = [10, 20, 30, 40, 50] :=
  chunk_yields_ceil_batches [10, 20, 30, 40, 50] 2 (by decide)

/-- C10.  Outside the `S > 0` precondition the chunker is not total in
the expected sense: with batch size `0`, Python's `range(0, len(df), 0)`
raises `ValueError` as soon as the generator is consumed, and with a
negative batch size `range(0, len(df), size)` is empty, so the chunker
yields no batches at all and every row is lost. -/
theorem chunk_nonpositive_size {α : Type} (df : List α) (size : Int) :
    (size = 0 → chunk df size = .error "range() arg 3 must not be zero") ∧
    (size < 0 → chunk df size = .ok []) := by
  constructor
  · intro h
    subst h
    simp [chunk]
  · intro h
    have h0 : size ≠ 0 := by omega
    simp [chunk, h0, h]

theorem chunk_nonpositive_size_witness :
    chunk [1, 2, 3] (0 : Int) = .error "range() arg 3 must not be zero" ∧
    chunk [1, 2, 3] (-1 : Int) = .ok [] :=
  ⟨(chunk_nonpositive_size [1, 2, 3] 0).1 rfl,
   (chunk_nonpositive_size [1, 2, 3] (-1)).2 (by decide)⟩

theorem runStatements_all_ok {ε : Type} {run : String → Except ε Unit}
    {l : List String} (h : ∀ s ∈ l, run s = .ok ()) :
    runStatements run l = (l, none) := by
  induction l with
  | nil => rfl
  | cons s rest ih =>
    have hs : run s = .ok () := h s (List.mem_cons_self _ _)
    simp [runStatements, hs, ih (fun x hx => h x (List.mem_cons_of_mem _ hx))]

theorem runStatements_stops {ε : Type} {run : String → Except ε Unit}
    {pre post : List String} {bad : String} {e : ε}
    (hpre : ∀ s ∈ pre, run s = .ok ()) (hbad : run bad = .error e) :
    runStatements run (pre ++ bad :: post) = (pre ++ [bad], some e) := by
  induction pre with
  | nil => simp [runStatements, hbad]
  | cons p pre ih =>
    have hp : run p = .ok () := hpre p (List.mem_cons_self _ _)
    simp [runStatements, hp, ih (fun x hx => hpre x (List.mem_cons_of_mem _ hx))]

/-- C5.  The schema loader splits the file text on `;`, trims each
fragment, discards fragments that are empty after trimming (so
whitespace-only segments execute nothing), executes the remaining
statements sequentially in file order, and stops at the first statement
whose execution fails, executing none of the statements after it. -/
theorem run_cypher_file_spec {ε : Type} (run : String → Except ε Unit) (text : String) :
    (∀ s ∈ splitStatements text, s ≠ "" ∧ ∃ frag ∈ pySplit ';' text, s = pyStrip frag) ∧
    ((∀ s ∈ splitStatements text, run s = .ok ()) →
      run_cypher_file run text = (splitStatements text, none)) ∧
    (∀ pre bad post e, splitStatements text = pre ++ bad :: post →
      (∀ s ∈ pre, run s = .ok ()) → run bad = .error e →
      run_cypher_file run text = (pre ++ [bad], some e)) := by
  refine ⟨?_, ?_, ?_⟩
  · intro s hs
    unfold splitStatements at hs
    rw [List.mem_filter] at hs
    obtain ⟨hmem, hne⟩ := hs
    rw [List.mem_map] at hmem
    obtain ⟨frag, hfrag, heq⟩ := hmem
    exact ⟨by simpa using hne, frag, hfrag, heq.symm⟩
  · intro h
    unfold run_cypher_file
    exact runStatements_all_ok h
  · intro pre bad post e hsplit hpre hbad
    unfold run_cypher_file
    rw [hsplit]
    exact runStatements_stops hpre hbad

theorem run_cypher_file_spec_witness :
    run_cypher_file
      (fun s => if s = "B" then Except.error "boom" else Except.ok ())
      "A; \n ;B;C" = (["A", "B"], some "boom") :=
  (run_cypher_file_spec
      (fun s => if s = "B" then Except.error "boom" else Except.ok ())
      "A; \n ;B;C").2.2 ["A"] "B" ["C"] "boom" (by decide)
    (fun s hs => by rcases List.mem_singleton.mp hs with rfl; rfl) rfl

theorem waitFuel_succeeds {check : Nat → Bool} :
    ∀ {fuel n k : Nat}, check (n + k) = true → (∀ j, j < k → check (n + j) = false) →
      k < fuel → waitFuel check fuel n = some (n + k + 1) := by
  intro fuel
  induction fuel with
  | zero => intro n k _ _ hk; omega
  | succ fuel ih =>
    intro n k hk hbefore hfuel
    by_cases h0 : check n = true
    · have hk0 : k = 0 := by
        by_contra hne
        have hcontra := hbefore 0 (by omega)
        simp only [Nat.add_zero] at hcontra
        rw [h0] at hcontra
        exact Bool.noConfusion hcontra
      subst hk0
      simp [waitFuel, h0]
    · have hkpos : k ≠ 0 := by
        intro hk0
        subst hk0
        rw [show n + 0 = n by omega] at hk
        exact h0 hk
      obtain ⟨k', rfl⟩ : ∃ k', k = k' + 1 := ⟨k - 1, by omega⟩
      have hstep : waitFuel check (fuel + 1) n = waitFuel check fuel (n + 1) := by
        simp [waitFuel, h0]
      rw [hstep]
      have h1 : check ((n + 1) + k') = true := by
        rw [show (n + 1) + k' = n + (k' + 1) by omega]
        exact hk
      have h2 : ∀ j, j < k' → check ((n + 1) + j) = false := by
        intro j hj
        rw [show (n + 1) + j = n + (j + 1) by omega]
        exact hbefore (j + 1) (by omega)
      have := ih h1 h2 (by omega)
      rw [this]
      congr 1
      omega

theorem waitFuel_never {check : Nat → Bool} (h : ∀ n, check n = false) :
    ∀ (fuel n : Nat), waitFuel check fuel n = none := by
  intro fuel
  induction fuel with
  | zero => intro n; rfl
  | succ fuel ih =>
    intro n
    simp [waitFuel, h n, ih]

/-- C6.  The readiness gate retries the connectivity check once per loop
iteration.  If the check first succeeds at (0-based) attempt `k`, the
gate returns normally — never an error — immediately after that attempt,
having made exactly `k + 1` attempts (fail twice, succeed → 3 attempts).
If the check never succeeds, the gate loops forever: it is still running
after any amount of fuel. -/
theorem readiness_gate_attempts (check : Nat → Bool) :
    (∀ k fuel, check k = true → (∀ j, j < k → check j = false) → k < fuel →
      waitFuel check fuel 0 = some (k + 1)) ∧
    ((∀ n, check n = false) → ∀ fuel, waitFuel check fuel 0 = none) := by
  constructor
  · intro k fuel hk hbefore hfuel
    have := waitFuel_succeeds (n := 0) (k := k)
      (by simpa using hk) (fun j hj => by simpa using hbefore j hj) hfuel
    simpa using this
  · intro h fuel
    exact waitFuel_never h fuel 0

theorem readiness_gate_attempts_witness :
    waitFuel (fun n => n == 2) 10 0 = some 3 :=
  (readiness_gate_attempts (fun n => n == 2)).1 2 10 (by decide)
    (by decide) (by decide)

theorem loadCategories_foldl (rows : List CategoryRow) (g : Graph) :
    loadCategories rows g = rows.foldl categoryStep g :=
  chunked_foldl categoryStep rows g (by norm_num)

theorem loadProducts_foldl (rows : List ProductRow) (g : Graph) :
    loadProducts rows g = rows.foldl productStep g :=
  chunked_foldl productStep rows g (by norm_num)

theorem loadCustomers_foldl (rows : List CustomerRow) (g : Graph) :
    loadCustomers rows g = rows.foldl customerStep g :=
  chunked_foldl customerStep rows g (by norm_num)

theorem loadOrders_foldl (rows : List OrderRow) (g : Graph) :
    loadOrders rows g = rows.foldl orderStep g :=
  chunked_foldl orderStep rows g (by norm_num)

theorem loadOrderItems_foldl (rows : List OrderItemRow) (g : Graph) :
    loadOrderItems rows g = rows.foldl orderItemStep g :=
  chunked_foldl orderItemStep rows g (by norm_num)

theorem loadViewEvents_foldl (rows : List EventRow) (g : Graph) :
    loadViewEvents rows g = rows.foldl viewStep g :=
  chunked_foldl viewStep rows g (by norm_num)

theorem loadClickEvents_foldl (rows : List EventRow) (g : Graph) :
    loadClickEvents rows g = rows.foldl clickStep g :=
  chunked_foldl clickStep rows g (by norm_num)

theorem loadAtcEvents_foldl (rows : List EventRow) (g : Graph) :
    loadAtcEvents rows g = rows.foldl atcStep g :=
  chunked_foldl atcStep rows g (by norm_num)

theorem loadCategories_closed (rows : List CategoryRow) (g : Graph) :
    loadCategories rows g =
      { g with categories := mapUpsert (catPairs rows) g.categories } := by
  rw [loadCategories_foldl]
  induction rows generalizing g with
  | nil => rfl
  | cons r rows ih =>
    rw [List.foldl_cons, ih]
    simp [categoryStep, catPairs]

theorem loadProducts_closed (rows : List ProductRow) (g : Graph) :
    loadProducts rows g =
      { g with
        products := mapUpsert (prodPairs rows) g.products,
        inCategory := insertFold (inCatEdges rows g.categories) g.inCategory } := by
  rw [loadProducts_foldl]
  induction rows generalizing g with
  | nil => rfl
  | cons r rows ih =>
    rw [List.foldl_cons, ih]
    unfold productStep
    cases hl : lookupKey r.category_id g.categories with
    | some v => simp [prodPairs, inCatEdges, hl]
    | none => simp [prodPairs, inCatEdges, hl]

theorem loadCustomers_closed (rows : List CustomerRow) (g : Graph) :
    loadCustomers rows g =
      { g with customers := mapUpsert (custPairs rows) g.customers } := by
  rw [loadCustomers_foldl]
  induction rows generalizing g with
  | nil => rfl
  | cons r rows ih =>
    rw [List.foldl_cons, ih]
    simp [customerStep, custPairs]

theorem loadOrders_closed (rows : List OrderRow) (g : Graph) :
    loadOrders rows g =
      { g with
        orders := mapUpsert (orderPairs rows) g.orders,
        placed := insertFold (placedEdges rows g.customers) g.placed } := by
  rw [loadOrders_foldl]
  induction rows generalizing g with
  | nil => rfl
  | cons r rows ih =>
    rw [List.foldl_cons, ih]
    unfold orderStep
    cases hl : lookupKey r.customer_id g.customers with
    | some v => simp [orderPairs, placedEdges, hl]
    | none => simp [orderPairs, placedEdges, hl]

theorem loadOrderItems_closed (rows : List OrderItemRow) (g : Graph) :
    loadOrderItems rows g =
      { g with contains := mapUpsert (containsPairs rows g.orders g.products) g.contains } := by
  rw [loadOrderItems_foldl]
  induction rows generalizing g with
  | nil => rfl
  | cons r rows ih =>
    rw [List.foldl_cons, ih]
    unfold orderItemStep
    cases ho : lookupKey r.order_id g.orders with
    | some v =>
      cases hp : lookupKey r.product_id g.products with
      | some w => simp [containsPairs, ho, hp]
      | none => simp [containsPairs, ho, hp]
    | none => simp [containsPairs, ho]

theorem loadViewEvents_closed (rows : List EventRow) (g : Graph) :
    loadViewEvents rows g =
      { g with view := mapUpsert (eventPairs rows g.customers g.products) g.view } := by
  rw [loadViewEvents_foldl]
  induction rows generalizing g with
  | nil => rfl
  | cons r rows ih =>
    rw [List.foldl_cons, ih]
    unfold viewStep
    cases hc : lookupKey r.customer_id g.customers with
    | some v =>
      cases hp : lookupKey r.product_id g.products with
      | some w => simp [eventPairs, hc, hp]
      | none => simp [eventPairs, hc, hp]
    | none => simp [eventPairs, hc]

theorem loadClickEvents_closed (rows : List EventRow) (g : Graph) :
    loadClickEvents rows g =
      { g with click := mapUpsert (eventPairs rows g.customers g.products) g.click } := by
  rw [loadClickEvents_foldl]
  induction rows generalizing g with
  | nil => rfl
  | cons r rows ih =>
    rw [List.foldl_cons, ih]
    unfold clickStep
    cases hc : lookupKey r.customer_id g.customers with
    | some v =>
      cases hp : lookupKey r.product_id g.products with
      | some w => simp [eventPairs, hc, hp]
      | none => simp [eventPairs, hc, hp]
    | none => simp [eventPairs, hc]

theorem loadAtcEvents_closed (rows : List EventRow) (g : Graph) :
    loadAtcEvents rows g =
      { g with addToCart := mapUpsert (eventPairs rows g.customers g.products) g.addToCart } := by
  rw [loadAtcEvents_foldl]
  induction rows generalizing g with
  | nil => rfl
  | cons r rows ih =>
    rw [List.foldl_cons, ih]
    unfold atcStep
    cases hc : lookupKey r.customer_id g.customers with
    | some v =>
      cases hp : lookupKey r.product_id g.products with
      | some w => simp [eventPairs, hc, hp]
      | none => simp [eventPairs, hc, hp]
    | none => simp [eventPairs, hc]

/-- The whole load phase, written out field by field.  The node maps the
relationship guards match against are the ones produced by the node
phases that ran earlier in the pipeline. -/
theorem etlLoad_closed (src : Source) (g : Graph) :
    etlLoad src g =
      { categories := mapUpsert (catPairs src.categories) g.categories
        products := mapUpsert (prodPairs src.products) g.products
        customers := mapUpsert (custPairs src.customers) g.customers
        orders := mapUpsert (orderPairs src.orders) g.orders
        inCategory := insertFold
          (inCatEdges src.products (mapUpsert (catPairs src.categories) g.categories))
          g.inCategory
        placed := insertFold
          (placedEdges src.orders (mapUpsert (custPairs src.customers) g.customers))
          g.placed
        contains := mapUpsert
          (containsPairs src.order_items
            (mapUpsert (orderPairs src.orders) g.orders)
            (mapUpsert (prodPairs src.products) g.products))
          g.contains
        view := mapUpsert
          (eventPairs (viewRows src.events)
            (mapUpsert (custPairs src.customers) g.customers)
            (mapUpsert (prodPairs src.products) g.products))
          g.view
        click := mapUpsert
          (eventPairs (clickRows src.events)
            (mapUpsert (custPairs src.customers) g.customers)
            (mapUpsert (prodPairs src.products) g.products))
          g.click
        addToCart := mapUpsert
          (eventPairs (atcRows src.events)
            (mapUpsert (custPairs src.customers) g.customers)
            (mapUpsert (prodPairs src.products) g.products))
          g.addToCart } := by
  unfold etlLoad loadAllEvents
  rw [loadCategories_closed, loadProducts_closed, loadCustomers_closed,
    loadOrders_closed, loadOrderItems_closed, loadViewEvents_closed,
    loadClickEvents_closed, loadAtcEvents_closed]

/-- C2.  Running the load phase twice in sequence against the same source
snapshot yields the same final graph as running it once (hence in
particular the same node and relationship counts): node upsert is
idempotent on `id`, relationship upsert is idempotent on the
(source-id, target-id, kind) triple, so re-running duplicates nothing. -/
theorem etlLoad_idempotent (src : Source) (g : Graph) (hw : WFgraph g) :
    etlLoad src (etlLoad src g) = etlLoad src g := by
  obtain ⟨hc, hp, hu, ho, hct, hv, hk, ha⟩ := hw
  rw [etlLoad_closed src g, etlLoad_closed src]
  have hC : mapUpsert (catPairs src.categories)
        (mapUpsert (catPairs src.categories) g.categories) =
      mapUpsert (catPairs src.categories) g.categories := mapUpsert_idem hc
  have hP : mapUpsert (prodPairs src.products)
        (mapUpsert (prodPairs src.products) g.products) =
      mapUpsert (prodPairs src.products) g.products := mapUpsert_idem hp
  have hU : mapUpsert (custPairs src.customers)
        (mapUpsert (custPairs src.customers) g.customers) =
      mapUpsert (custPairs src.customers) g.customers := mapUpsert_idem hu
  have hO : mapUpsert (orderPairs src.orders)
        (mapUpsert (orderPairs src.orders) g.orders) =
      mapUpsert (orderPairs src.orders) g.orders := mapUpsert_idem ho
  apply Graph.ext
  · exact hC
  · exact hP
  · exact hU
  · exact hO
  · show insertFold _ (insertFold _ _) = _
    rw [hC]
    exact insertFold_idem _ _
  · show insertFold _ (insertFold _ _) = _
    rw [hU]
    exact insertFold_idem _ _
  · show mapUpsert _ (mapUpsert _ _) = _
    rw [hO, hP]
    exact mapUpsert_idem hct
  · show mapUpsert _ (mapUpsert _ _) = _
    rw [hU, hP]
    exact mapUpsert_idem hv
  · show mapUpsert _ (mapUpsert _ _) = _
    rw [hU, hP]
    exact mapUpsert_idem hk
  · show mapUpsert _ (mapUpsert _ _) = _
    rw [hU, hP]
    exact mapUpsert_idem ha

theorem etlLoad_idempotent_witness :
    etlLoad srcW (etlLoad srcW emptyGraph) = etlLoad srcW emptyGraph :=
  etlLoad_idempotent srcW emptyGraph
    (by simp [WFgraph, WFmap, emptyGraph, keysOf])

/-! ### Event partitioning -/

theorem loadAllEvents_closed (events : List EventRow) (g : Graph) :
    loadAllEvents events g =
      { g with
        view := mapUpsert (eventPairs (viewRows events) g.customers g.products) g.view
        click := mapUpsert (eventPairs (clickRows events) g.customers g.products) g.click
        addToCart := mapUpsert (eventPairs (atcRows events) g.customers g.products) g.addToCart } := by
  unfold loadAllEvents
  rw [loadViewEvents_closed, loadClickEvents_closed, loadAtcEvents_closed]

theorem eventPairs_all_valid {rows : List EventRow}
    {custs : List (Int × (String × String))} {prods : List (Int × (String × Int))}
    (h : ∀ r ∈ rows, (lookupKey r.customer_id custs).isSome ∧
      (lookupKey r.product_id prods).isSome) :
    eventPairs rows custs prods =
      rows.map (fun r => ((r.customer_id, r.product_id), r.ts)) := by
  induction rows with
  | nil => rfl
  | cons r rows ih =>
    obtain ⟨h1, h2⟩ := h r (List.mem_cons_self _ _)
    obtain ⟨v, hv⟩ := Option.isSome_iff_exists.mp h1
    obtain ⟨w, hw⟩ := Option.isSome_iff_exists.mp h2
    have ih' := ih (fun x hx => h x (List.mem_cons_of_mem _ hx))
    simp only [eventPairs, List.filterMap_cons, hv, hw] at ih' ⊢
    rw [List.map_cons, ← ih']

theorem mapUpsert_all_new {ps m : List (κ × ν)}
    (h1 : ∀ p ∈ ps, p.1 ∉ keysOf m) (h2 : (ps.map Prod.fst).Nodup) :
    mapUpsert ps m = m ++ ps := by
  induction ps generalizing m with
  | nil => simp
  | cons p ps ih =>
    rw [mapUpsert_cons, upsert_of_not_mem (h1 p (List.mem_cons_self _ _))]
    rw [List.map_cons, List.nodup_cons] at h2
    rw [ih ?_ h2.2]
    · simp
    · intro q hq
      simp only [keysOf_append, List.mem_append, keysOf_cons, keysOf_nil,
        List.mem_cons, List.not_mem_nil, or_false]
      push_neg
      refine ⟨h1 q (List.mem_cons_of_mem _ hq), ?_⟩
      intro hqp
      exact h2.1 (hqp ▸ List.mem_map_of_mem Prod.fst hq)

theorem events_filter_partition {events : List EventRow}
    (hcover : ∀ e ∈ events, e.event_type = "view" ∨ e.event_type = "click" ∨
      e.event_type = "add_to_cart") :
    (viewRows events).length + (clickRows events).length + (atcRows events).length =
      events.length := by
  induction events with
  | nil => rfl
  | cons e events ih =>
    have ih' := ih (fun x hx => hcover x (List.mem_cons_of_mem _ hx))
    rcases hcover e (List.mem_cons_self _ _) with h | h | h <;>
      simp [viewRows, clickRows, atcRows, List.filter_cons, h] at ih' ⊢ <;>
      omega

theorem eventKeys_nodup (events : List EventRow) (ty : String)
    (hnodup : (events.map (fun e => (e.customer_id, e.product_id, e.event_type))).Nodup) :
    (((events.filter (fun e => e.event_type == ty)).map
        (fun r => ((r.customer_id, r.product_id), r.ts))).map Prod.fst).Nodup := by
  rw [List.map_map]
  have hsub : (events.filter (fun e => e.event_type == ty)).Sublist events :=
    List.filter_sublist events
  have htr : ((events.filter (fun e => e.event_type == ty)).map
      (fun e => (e.customer_id, e.product_id, e.event_type))).Nodup :=
    hnodup.sublist (hsub.map _)
  have hkey : ∀ e ∈ events.filter (fun e => e.event_type == ty), e.event_type = ty := by
    intro e he
    have := (List.mem_filter.mp he).2
    simpa using this
  have heq : ((events.filter (fun e => e.event_type == ty)).map
      (Prod.fst ∘ fun r => ((r.customer_id, r.product_id), r.ts))) =
      ((events.filter (fun e => e.event_type == ty)).map
        (fun e => (e.customer_id, e.product_id, e.event_type))).map
        (fun t => (t.1, t.2.1)) := by
    rw [List.map_map]
    refine List.map_congr_left (fun e _ => ?_)
    rfl
  rw [heq]
  refine List.Nodup.map_on ?_ htr
  rintro ⟨a, b, c⟩ hx ⟨a', b', c'⟩ hy hfxy
  simp only [Prod.mk.injEq] at hfxy ⊢
  obtain ⟨x, hxmem, hxeq⟩ := List.mem_map.mp hx
  obtain ⟨y, hymem, hyeq⟩ := List.mem_map.mp hy
  have hcx : c = ty := by
    have h3 := congrArg (fun t => (t.2.2 : String)) hxeq
    simp only at h3
    rw [← h3]
    exact hkey x hxmem
  have hcy : c' = ty := by
    have h3 := congrArg (fun t => (t.2.2 : String)) hyeq
    simp only at h3
    rw [← h3]
    exact hkey y hymem
  exact ⟨hfxy.1, hfxy.2, hcx.trans hcy.symm⟩

/-- C3 counterexample.  Both rows of `eventsCx` have valid endpoints in
`gW` and there are 2 input event rows, yet only 1 event edge exists after
loading: `MERGE` keys the `VIEW` relationship on the endpoint pair, so
the duplicated (customer, product, type) row merges into the same edge
and the claimed count `VIEW + CLICK + ADD_TO_CART = #rows` fails. -/
theorem event_count_counterexample :
    (∀ e ∈ eventsCx, (lookupKey e.customer_id gW.customers).isSome ∧
      (lookupKey e.product_id gW.products).isSome) ∧
    gW.view = [] ∧ gW.click = [] ∧ gW.addToCart = [] ∧
    eventsCx.length = 2 ∧
    (loadAllEvents eventsCx gW).view.length +
      (loadAllEvents eventsCx gW).click.length +
      (loadAllEvents eventsCx gW).addToCart.length = 1 := by
  decide

/-- C3 (amended).  For every input event set whose rows all have valid
endpoints, whose event types are each one of `view`, `click`,
`add_to_cart`, and whose (customer-id, product-id, event-type) triples
are pairwise distinct, loaded into a graph with no pre-existing event
edges: the total count of VIEW, CLICK and ADD_TO_CART edges equals the
count of input rows; the three per-type filter passes cover such input;
and no row appears in more than one pass. -/
theorem event_partition_amended (events : List EventRow) (g : Graph)
    (hvalid : ∀ e ∈ events, (lookupKey e.customer_id g.customers).isSome ∧
      (lookupKey e.product_id g.products).isSome)
    (htypes : ∀ e ∈ events, e.event_type = "view" ∨ e.event_type = "click" ∨
      e.event_type = "add_to_cart")
    (hnodup : (events.map (fun e => (e.customer_id, e.product_id, e.event_type))).Nodup)
    (hv0 : g.view = []) (hc0 : g.click = []) (ha0 : g.addToCart = []) :
    ((loadAllEvents events g).view.length + (loadAllEvents events g).click.length +
      (loadAllEvents events g).addToCart.length = events.length) ∧
    (∀ e ∈ events, e ∈ viewRows events ∨ e ∈ clickRows events ∨ e ∈ atcRows events) ∧
    (∀ e : EventRow, ¬(e ∈ viewRows events ∧ e ∈ clickRows events) ∧
      ¬(e ∈ viewRows events ∧ e ∈ atcRows events) ∧
      ¬(e ∈ clickRows events ∧ e ∈ atcRows events)) := by
  refine ⟨?_, ?_, ?_⟩
  · have hview : (loadAllEvents events g).view =
        mapUpsert (eventPairs (viewRows events) g.customers g.products) g.view := by
      rw [loadAllEvents_closed]
    have hclick : (loadAllEvents events g).click =
        mapUpsert (eventPairs (clickRows events) g.customers g.products) g.click := by
      rw [loadAllEvents_closed]
    have hatc : (loadAllEvents events g).addToCart =
        mapUpsert (eventPairs (atcRows events) g.customers g.products) g.addToCart := by
      rw [loadAllEvents_closed]
    rw [hview, hclick, hatc, hv0, hc0, ha0]
    have hev1 : eventPairs (viewRows events) g.customers g.products =
        (viewRows events).map (fun r => ((r.customer_id, r.product_id), r.ts)) :=
      eventPairs_all_valid (fun r hr => hvalid r (List.mem_of_mem_filter hr))
    have hev2 : eventPairs (clickRows events) g.customers g.products =
        (clickRows events).map (fun r => ((r.customer_id, r.product_id), r.ts)) :=
      eventPairs_all_valid (fun r hr => hvalid r (List.mem_of_mem_filter hr))
    have hev3 : eventPairs (atcRows events) g.customers g.products =
        (atcRows events).map (fun r => ((r.customer_id, r.product_id), r.ts)) :=
      eventPairs_all_valid (fun r hr => hvalid r (List.mem_of_mem_filter hr))
    rw [hev1, hev2, hev3]
    have hn1 : mapUpsert
          ((viewRows events).map (fun r => ((r.customer_id, r.product_id), r.ts))) [] =
        [] ++ (viewRows events).map (fun r => ((r.customer_id, r.product_id), r.ts)) :=
      mapUpsert_all_new (by simp [keysOf]) (eventKeys_nodup events "view" hnodup)
    have hn2 : mapUpsert
          ((clickRows events).map (fun r => ((r.customer_id, r.product_id), r.ts))) [] =
        [] ++ (clickRows events).map (fun r => ((r.customer_id, r.product_id), r.ts)) :=
      mapUpsert_all_new (by simp [keysOf]) (eventKeys_nodup events "click" hnodup)
    have hn3 : mapUpsert
          ((atcRows events).map (fun r => ((r.customer_id, r.product_id), r.ts))) [] =
        [] ++ (atcRows events).map (fun r => ((r.customer_id, r.product_id), r.ts)) :=
      mapUpsert_all_new (by simp [keysOf]) (eventKeys_nodup events "add_to_cart" hnodup)
    rw [hn1, hn2, hn3]
    simp only [List.nil_append, List.length_map]
    exact events_filter_partition htypes
  · intro e he
    rcases htypes e he with h | h | h
    · exact Or.inl (List.mem_filter.mpr ⟨he, by simp [h]⟩)
    · exact Or.inr (Or.inl (List.mem_filter.mpr ⟨he, by simp [h]⟩))
    · exact Or.inr (Or.inr (List.mem_filter.mpr ⟨he, by simp [h]⟩))
  · intro e
    refine ⟨?_, ?_, ?_⟩ <;> rintro ⟨h1, h2⟩ <;>
      simp only [viewRows, clickRows, atcRows, List.mem_filter, beq_iff_eq] at h1 h2
    · exact absurd (h1.2.symm.trans h2.2) (by decide)
    · exact absurd (h1.2.symm.trans h2.2) (by decide)
    · exact absurd (h1.2.symm.trans h2.2) (by decide)

theorem event_partition_amended_witness :
    ((loadAllEvents eventsW gW).view.length + (loadAllEvents eventsW gW).click.length +
      (loadAllEvents eventsW gW).addToCart.length = eventsW.length) ∧
    (∀ e ∈ eventsW, e ∈ viewRows eventsW ∨ e ∈ clickRows eventsW ∨ e ∈ atcRows eventsW) ∧
    (∀ e : EventRow, ¬(e ∈ viewRows eventsW ∧ e ∈ clickRows eventsW) ∧
      ¬(e ∈ viewRows eventsW ∧ e ∈ atcRows eventsW) ∧
      ¬(e ∈ clickRows eventsW ∧ e ∈ atcRows eventsW)) :=
  event_partition_amended eventsW gW (by decide) (by decide) (by decide) rfl rfl rfl

/-! ### Dangling foreign keys -/

theorem mem_inCatEdges {e : Int × Int} {rows : List ProductRow}
    {cats : List (Int × String)} (h : e ∈ inCatEdges rows cats) :
    ∃ r ∈ rows, e = (r.id, r.category_id) ∧ (lookupKey r.category_id cats).isSome := by
  unfold inCatEdges at h
  rw [List.mem_filterMap] at h
  obtain ⟨r, hr, hmatch⟩ := h
  cases hl : lookupKey r.category_id cats with
  | some v =>
    rw [hl] at hmatch
    simp only [Option.some.injEq] at hmatch
    exact ⟨r, hr, hmatch.symm, by simp [hl]⟩
  | none =>
    rw [hl] at hmatch
    simp at hmatch

/-- C4.  Every relationship upsert (`IN_CATEGORY`, `PLACED`, `CONTAINS`,
`VIEW`, `CLICK`, `ADD_TO_CART`) silently does nothing when an endpoint
node is missing — the failed `MATCH` drops the row instead of raising:
the product and order steps still upsert their node, the pure-`MATCH`
steps leave the graph unchanged.  In particular, loading a product whose
referenced category is absent everywhere creates the Product node but no
`IN_CATEGORY` edge. -/
theorem dangling_endpoint_noop :
    (∀ (g : Graph) (r : ProductRow), lookupKey r.category_id g.categories = none →
      productStep g r = { g with products := upsert r.id (r.name, r.price) g.products }) ∧
    (∀ (g : Graph) (r : OrderRow), lookupKey r.customer_id g.customers = none →
      orderStep g r = { g with orders := upsert r.id r.ts g.orders }) ∧
    (∀ (g : Graph) (r : OrderItemRow),
      lookupKey r.order_id g.orders = none ∨ lookupKey r.product_id g.products = none →
      orderItemStep g r = g) ∧
    (∀ (g : Graph) (r : EventRow),
      lookupKey r.customer_id g.customers = none ∨ lookupKey r.product_id g.products = none →
      viewStep g r = g ∧ clickStep g r = g ∧ atcStep g r = g) ∧
    (∀ (src : Source) (g : Graph) (r : ProductRow), r ∈ src.products →
      (∀ c ∈ src.categories, c.id ≠ r.category_id) →
      r.category_id ∉ keysOf g.categories →
      (r.id, r.category_id) ∉ g.inCategory →
      r.id ∈ keysOf (etlLoad src g).products ∧
      (r.id, r.category_id) ∉ (etlLoad src g).inCategory) := by
  refine ⟨?_, ?_, ?_, ?_, ?_⟩
  · intro g r h
    unfold productStep
    simp only [h]
  · intro g r h
    unfold orderStep
    simp only [h]
  · intro g r h
    unfold orderItemStep
    rcases h with h | h
    · simp only [h]
    · rw [h]
      cases lookupKey r.order_id g.orders <;> rfl
  · intro g r h
    unfold viewStep clickStep atcStep
    rcases h with h | h
    · simp [h]
    · rw [h]
      refine ⟨?_, ?_, ?_⟩ <;> cases lookupKey r.customer_id g.customers <;> rfl
  · intro src g r hr hcat hg hpre
    have hprod : (etlLoad src g).products = mapUpsert (prodPairs src.products) g.products := by
      rw [etlLoad_closed]
    have hic : (etlLoad src g).inCategory =
        insertFold
          (inCatEdges src.products (mapUpsert (catPairs src.categories) g.categories))
          g.inCategory := by
      rw [etlLoad_closed]
    constructor
    · rw [hprod]
      have hmem : (r.id, (r.name, r.price)) ∈ prodPairs src.products :=
        List.mem_map_of_mem _ hr
      exact mem_keysOf_mapUpsert hmem
    · rw [hic]
      intro hmem
      rcases mem_insertFold.mp hmem with hmem | hmem
      · exact hpre hmem
      · obtain ⟨r', _, heq, hsome⟩ := mem_inCatEdges hmem
        have hdang : r.category_id ∉ keysOf (mapUpsert (catPairs src.categories) g.categories) := by
          refine not_mem_keysOf_mapUpsert hg ?_
          intro p hp
          obtain ⟨c, hc, rfl⟩ := List.mem_map.mp hp
          exact hcat c hc
        have hcid : r'.category_id = r.category_id := by
          have h5 := congrArg Prod.snd heq
          simpa using h5.symm
        rw [hcid] at hsome
        rw [lookupKey_eq_none hdang] at hsome
        simp at hsome

theorem dangling_endpoint_noop_witness :
    (2 : Int) ∈ keysOf (etlLoad srcDangling emptyGraph).products ∧
    ((2 : Int), (99 : Int)) ∉ (etlLoad srcDangling emptyGraph).inCategory :=
  dangling_endpoint_noop.2.2.2.2 srcDangling emptyGraph ⟨2, "book", 5, 99⟩
    (by decide) (by decide) (by decide) (by decide)

/-- Replaying the call trace sequentially is exactly the load phase. -/
theorem etlOps_replay (src : Source) (g : Graph) :
    (etlOps src).foldl applyOp g = etlLoad src g := by
  unfold etlOps etlLoad loadAllEvents loadCategories loadProducts loadCustomers
    loadOrders loadOrderItems loadViewEvents loadClickEvents loadAtcEvents
  simp only [List.foldl_append, List.foldl_map]
  rfl

theorem idx_lt_of_split {γ : Type} (l l₁ l₂ : List γ) (P Q : γ → Prop)
    (hl : l = l₁ ++ l₂) (hP : ∀ a ∈ l₂, ¬ P a) (hQ : ∀ a ∈ l₁, ¬ Q a)
    (i j : Nat) (hi : i < l.length) (hj : j < l.length)
    (hPi : P (l.get ⟨i, hi⟩)) (hQj : Q (l.get ⟨j, hj⟩)) : i < j := by
  subst hl
  rw [List.get_eq_getElem] at hPi hQj
  have hi1 : i < l₁.length := by
    by_contra hge
    push_neg at hge
    rw [List.getElem_append_right hge] at hPi
    exact hP _ (List.getElem_mem _) hPi
  have hj2 : l₁.length ≤ j := by
    by_contra hlt
    push_neg at hlt
    rw [List.getElem_append_left hlt] at hQj
    exact hQ _ (List.getElem_mem _) hQj
  omega

/-- C7.  The load phase is strictly sequential (its bulk-write calls form
the single list `etlOps src`, replayed left to right by `etlOps_replay`),
and in that order every category upsert precedes every product upsert,
every customer upsert precedes every order upsert, and every customer,
order and product upsert precedes every order-item and event relationship
upsert. -/
theorem load_phase_ordering (src : Source) (i j : Nat)
    (hi : i < (etlOps src).length) (hj : j < (etlOps src).length) :
    ((((etlOps src).get ⟨i, hi⟩).kind = OpKind.category →
      (((etlOps src).get ⟨j, hj⟩).kind = OpKind.product) → i < j) ∧
     ((((etlOps src).get ⟨i, hi⟩).kind = OpKind.customer) →
      (((etlOps src).get ⟨j, hj⟩).kind = OpKind.order) → i < j) ∧
     ((((etlOps src).get ⟨i, hi⟩).kind ∈
        ([OpKind.customer, OpKind.order, OpKind.product] : List OpKind)) →
      (((etlOps src).get ⟨j, hj⟩).kind ∈
        ([OpKind.orderItem, OpKind.view, OpKind.click, OpKind.addToCart] : List OpKind)) →
      i < j)) := by
  refine ⟨?_, ?_, ?_⟩
  · intro hPi hQj
    refine idx_lt_of_split (etlOps src)
      ((chunkOk src.categories 100).map Op.categories)
      ((chunkOk src.products 100).map Op.products ++
       ((chunkOk src.customers 100).map Op.customers ++
        ((chunkOk src.orders 100).map Op.orders ++
         ((chunkOk src.order_items 100).map Op.orderItems ++
          ((chunkOk (viewRows src.events) 100).map Op.viewEvents ++
           ((chunkOk (clickRows src.events) 100).map Op.clickEvents ++
            (chunkOk (atcRows src.events) 100).map Op.atcEvents))))))
      (fun op => op.kind = OpKind.category) (fun op => op.kind = OpKind.product)
      (by simp [etlOps]) ?_ ?_ i j hi hj hPi hQj
    · simp only [List.forall_mem_append, List.forall_mem_map, Op.kind]
      simp
    · simp only [List.forall_mem_append, List.forall_mem_map, Op.kind]
      simp
  · intro hPi hQj
    refine idx_lt_of_split (etlOps src)
      ((chunkOk src.categories 100).map Op.categories ++
       (chunkOk src.products 100).map Op.products ++
       (chunkOk src.customers 100).map Op.customers)
      ((chunkOk src.orders 100).map Op.orders ++
       ((chunkOk src.order_items 100).map Op.orderItems ++
        ((chunkOk (viewRows src.events) 100).map Op.viewEvents ++
         ((chunkOk (clickRows src.events) 100).map Op.clickEvents ++
          (chunkOk (atcRows src.events) 100).map Op.atcEvents))))
      (fun op => op.kind = OpKind.customer) (fun op => op.kind = OpKind.order)
      (by simp [etlOps, List.append_assoc]) ?_ ?_ i j hi hj hPi hQj
    · simp only [List.forall_mem_append, List.forall_mem_map, Op.kind]
      simp
    · simp only [List.forall_mem_append, List.forall_mem_map, Op.kind]
      simp
  · intro hPi hQj
    refine idx_lt_of_split (etlOps src)
      ((chunkOk src.categories 100).map Op.categories ++
       (chunkOk src.products 100).map Op.products ++
       (chunkOk src.customers 100).map Op.customers ++
       (chunkOk src.orders 100).map Op.orders)
      ((chunkOk src.order_items 100).map Op.orderItems ++
       ((chunkOk (viewRows src.events) 100).map Op.viewEvents ++
        ((chunkOk (clickRows src.events) 100).map Op.clickEvents ++
         (chunkOk (atcRows src.events) 100).map Op.atcEvents)))
      (fun op => op.kind ∈ ([OpKind.customer, OpKind.order, OpKind.product] : List OpKind))
      (fun op => op.kind ∈
        ([OpKind.orderItem, OpKind.view, OpKind.click, OpKind.addToCart] : List OpKind))
      (by simp [etlOps, List.append_assoc]) ?_ ?_ i j hi hj hPi hQj
    · simp only [List.forall_mem_append, List.forall_mem_map, Op.kind]
      simp
    · simp only [List.forall_mem_append, List.forall_mem_map, Op.kind]
      simp

theorem load_phase_ordering_witness :
    (0 : Nat) < 1 ∧ (2 : Nat) < 3 ∧ (2 : Nat) < 4 :=
  ⟨(load_phase_ordering srcW 0 1 (by decide) (by decide)).1 (by decide) (by decide),
   (load_phase_ordering srcW 2 3 (by decide) (by decide)).2.1 (by decide) (by decide),
   (load_phase_ordering srcW 2 4 (by decide) (by decide)).2.2 (by decide) (by decide)⟩

/-- C8.  However the load phase exits — normally, or with a propagating
error raised during schema load, extraction or loading — both the
Postgres connection and the Neo4j driver are released before the run
terminates: the trace always ends with the two close actions, after all
load-phase actions, and the load phase's outcome is passed through. -/
theorem connections_released {ε : Type} (body : List EtlAction × Except ε Unit) :
    (etlResourceTrace body).1 =
      [EtlAction.openPgConn, EtlAction.openNeo4jDriver] ++ body.1 ++
        [EtlAction.closePgConn, EtlAction.closeNeo4jDriver] ∧
    EtlAction.closePgConn ∈ (etlResourceTrace body).1 ∧
    EtlAction.closeNeo4jDriver ∈ (etlResourceTrace body).1 ∧
    (etlResourceTrace body).2 = body.2 := by
  refine ⟨by simp [etlResourceTrace, tryFinally], ?_, ?_, rfl⟩ <;>
    simp [etlResourceTrace, tryFinally]

/-! ### Unrecognised event types -/

/-- C9.  An event row whose `event_type` is not exactly one of `"view"`,
`"click"`, `"add_to_cart"` (e.g. a case variant like `"View"`) is
silently dropped by the three per-type filters: removing it from the
event table does not change the loaded graph at all, and no error is
raised (the model of the event passes has no error outcome). -/
theorem unknown_event_type_dropped (pre post : List EventRow) (e : EventRow)
    (g : Graph) (h1 : e.event_type ≠ "view") (h2 : e.event_type ≠ "click")
    (h3 : e.event_type ≠ "add_to_cart") :
    loadAllEvents (pre ++ e :: post) g = loadAllEvents (pre ++ post) g := by
  have hv : viewRows (pre ++ e :: post) = viewRows (pre ++ post) := by
    simp [viewRows, List.filter_append, List.filter_cons, h1]
  have hc : clickRows (pre ++ e :: post) = clickRows (pre ++ post) := by
    simp [clickRows, List.filter_append, List.filter_cons, h2]
  have ha : atcRows (pre ++ e :: post) = atcRows (pre ++ post) := by
    simp [atcRows, List.filter_append, List.filter_cons, h3]
  unfold loadAllEvents
  rw [hv, hc, ha]

theorem unknown_event_type_dropped_witness :
    loadAllEvents [⟨1, 2, "View", "t9"⟩] emptyGraph = loadAllEvents [] emptyGraph :=
  unknown_event_type_dropped [] [] ⟨1, 2, "View", "t9"⟩ emptyGraph
    (by decide) (by decide) (by decide)

end GraphTP2

